import Mathlib

/-!
# nvi2 `common/util.c`: buffer growth, string duplication, number parsing

A shallow embedding of the support routines of `common/util.c`.

* Sizes (`size_t`) are natural numbers; the width `w` of `size_t` / `long` is a
  parameter and every C addition or subtraction on them is taken modulo `2 ^ w`.
* A pointer is `Option Block`: `none` is `NULL`, `some b` is a heap block with
  an address and the storage units that may be accessed through it.
* An access outside a block is undefined behaviour in C; the embedded
  functions return `none` in their outermost `Option` for it.
* The allocation macros (`REALLOC`, `MALLOC`) and the conversion macros
  (`STRTOUL`, `STRTOL`) are declared outside `util.c`; the functions take
  them as parameters.
-/

namespace Nvi

/-! ## Memory -/

/-- A heap block: the address it lives at and its storage units. -/
structure Block where
  addr : Nat
  bytes : List Nat
deriving DecidableEq, Repr

/-- A C pointer to a heap block; `none` is `NULL`. -/
abbrev Ptr := Option Block

/-- The storage units reachable through a pointer (nothing through `NULL`). -/
def content : Ptr → List Nat
  | none => []
  | some b => b.bytes

/-- Modelled from the spec: the `MAX` macro, declared outside `util.c`; the
larger of its two arguments, `((a) > (b) ? (a) : (b))`. -/
def MAX (a b : Nat) : Nat := if a > b then a else b

/-- `memset((char *)b + off, c, n)`: stores `c` into the `n` units from offset
`off`; `none` (undefined behaviour) when the range leaves the block. -/
def memset (b : Block) (off c n : Nat) : Option Block :=
  if off + n ≤ b.bytes.length then
    some { b with bytes := b.bytes.take off ++ List.replicate n c ++ b.bytes.drop (off + n) }
  else none

/-- `memcpy(dst, src, n)` on two disjoint regions: the state after the call is
the pair (destination, source); `none` (undefined behaviour) when either
region has fewer than `n` units. -/
def memcpy (dst src : List Nat) (n : Nat) : Option (List Nat × List Nat) :=
  if n ≤ dst.length ∧ n ≤ src.length then some (src.take n ++ dst.drop n, src) else none

/-- The assignment `dst[i] = v`; `none` (undefined behaviour) when `i` is not an
index of the block. -/
def store (dst : List Nat) (i v : Nat) : Option (List Nat) :=
  if i < dst.length then some (dst.set i v) else none

/-! ## binc -/

/-- The capacity `csize = *bsizep + MAX(min, 256)` that `binc` asks for, in
`size_t` arithmetic. -/
def csize (w bsize min : Nat) : Nat := (bsize + MAX min 256) % 2 ^ w

/-- The function `binc(sp, bp, bsizep, min)`. `REALLOC p n` is the value the
`REALLOC` macro leaves in `bp` (`none` when the allocation failed) and `bsize`
is `*bsizep` on entry. The result is the returned pointer and `*bsizep` on
exit; the outer `none` is undefined behaviour of the `memset`. -/
def binc (w : Nat) (REALLOC : Ptr → Nat → Ptr) (bp : Ptr) (bsize min : Nat) :
    Option (Ptr × Nat) :=
  if min ≠ 0 ∧ bsize ≥ min then some (bp, bsize)
  else
    match REALLOC bp (csize w bsize min) with
    | none => some (none, 0)
    | some b =>
      match memset b bsize 0 ((csize w bsize min + 2 ^ w - bsize) % 2 ^ w) with
      | none => none
      | some b' => some (some b', csize w bsize min)

/-- A sample allocator that always succeeds: the block moves to address `1`,
keeps the old units that fit and exposes the unit `170` in any added space. -/
def reallocOk : Ptr → Nat → Ptr := fun p n =>
  some ⟨1, (content p).take n ++ List.replicate (n - (content p).length) 170⟩

/-- A sample allocator that always fails. -/
def reallocFail : Ptr → Nat → Ptr := fun _ _ => none

/-! ## v_strdup, v_wstrdup -/

/-- The function `v_strdup(sp, str, len)`. `MALLOC n` is the pointer the
`MALLOC` macro leaves in `copy` for a request of `n` bytes, `str` the units
readable from the source pointer. The result is the returned pointer together
with the source region after the call; the outer `none` is undefined
behaviour of `memcpy` or of the store of the terminator. -/
def v_strdup (w : Nat) (MALLOC : Nat → Ptr) (str : List Nat) (len : Nat) :
    Option (Ptr × List Nat) :=
  match MALLOC ((len + 1) % 2 ^ w) with
  | none => some (none, str)
  | some copy =>
    match memcpy copy.bytes str len with
    | none => none
    | some (d, s) =>
      match store d len 0 with
      | none => none
      | some d' => some (some { copy with bytes := d' }, s)

/-- The function `v_wstrdup(sp, str, len)` on wide units: `sz` is
`sizeof(CHAR_T)`, the request is `(len + 1) * sizeof(CHAR_T)` bytes and
`MEMCPYW` copies `len` wide units. Blocks hold wide units here. -/
def v_wstrdup (w sz : Nat) (MALLOC : Nat → Ptr) (str : List Nat) (len : Nat) :
    Option (Ptr × List Nat) :=
  match MALLOC (((len + 1) % 2 ^ w * sz) % 2 ^ w) with
  | none => some (none, str)
  | some copy =>
    match memcpy copy.bytes str len with
    | none => none
    | some (d, s) =>
      match store d len 0 with
      | none => none
      | some d' => some (some { copy with bytes := d' }, s)

/-- A sample allocator that always succeeds: a block at address `2` of `n / sz`
units of size `sz`, each holding the unit `170`. -/
def mallocOk (sz : Nat) : Nat → Ptr := fun n => some ⟨2, List.replicate (n / sz) 170⟩

/-- A sample allocator that always fails. -/
def mallocFail : Nat → Ptr := fun _ => none

/-! ## nget_uslong, nget_slong -/

/-- The result codes `enum nresult { NUM_ERR, NUM_OK, NUM_OVER, NUM_UNDER }`. -/
inductive nresult where
  | NUM_ERR
  | NUM_OK
  | NUM_OVER
  | NUM_UNDER
deriving DecidableEq, Repr

/-- Modelled from the spec: the range-error code `ERANGE` of `<errno.h>`, which
`util.c` only includes; 34 on the BSDs and on Linux, and never 0. -/
def ERANGE : Nat := 34

/-- Modelled from the spec: a non-range error code, `EINVAL` of `<errno.h>`,
raised by the host conversions for a base they do not support. -/
def EINVAL : Nat := 22

/-- Modelled from the spec: `ULONG_MAX` of `<limits.h>`, the maximum
representable value of an `unsigned long` of `w` bits. -/
def ULONG_MAX (w : Nat) : Nat := 2 ^ w - 1

/-- Modelled from the spec: `LONG_MAX` of `<limits.h>`, the maximum
representable value of a `long` of `w` bits. -/
def LONG_MAX (w : Nat) : Int := 2 ^ (w - 1) - 1

/-- Modelled from the spec: `LONG_MIN` of `<limits.h>`, the most negative
value of a `long` of `w` bits. -/
def LONG_MIN (w : Nat) : Int := -(2 ^ (w - 1))

/-- What a call of the host conversion leaves behind when `errno` was `0`
before it: the returned value, the offset of `*endp` from the start of the
text, and `errno`. -/
structure Conv (α : Type) where
  val : α
  endp : Nat
  errno : Nat
deriving DecidableEq, Repr

/-- What `nget_uslong` / `nget_slong` leave behind: the returned code, `*valp`
and the offset of `*endp`. -/
structure Nget (α : Type) where
  res : nresult
  val : α
  endp : Nat
deriving DecidableEq, Repr

/-- The function `nget_uslong(valp, p, endp, base)`; `STRTOUL` is the host
conversion the macro of that name expands to. -/
def nget_uslong (w : Nat) (STRTOUL : List Nat → Int → Conv Nat) (p : List Nat) (base : Int) :
    Nget Nat :=
  let r := STRTOUL p base
  if r.errno = 0 then ⟨.NUM_OK, r.val, r.endp⟩
  else if r.errno = ERANGE ∧ r.val = ULONG_MAX w then ⟨.NUM_OVER, r.val, r.endp⟩
  else ⟨.NUM_ERR, r.val, r.endp⟩

/-- The function `nget_slong(valp, p, endp, base)`; `STRTOL` is the host
conversion the macro of that name expands to. -/
def nget_slong (w : Nat) (STRTOL : List Nat → Int → Conv Int) (p : List Nat) (base : Int) :
    Nget Int :=
  let r := STRTOL p base
  if r.errno = 0 then ⟨.NUM_OK, r.val, r.endp⟩
  else if r.errno = ERANGE then
    if r.val = LONG_MAX w then ⟨.NUM_OVER, r.val, r.endp⟩
    else if r.val = LONG_MIN w then ⟨.NUM_UNDER, r.val, r.endp⟩
    else ⟨.NUM_ERR, r.val, r.endp⟩
  else ⟨.NUM_ERR, r.val, r.endp⟩

/-! ## The host conversions behind `STRTOUL` and `STRTOL` -/

/-- The C-locale `isspace`: space, and the controls from tab to carriage return. -/
def isspace (c : Nat) : Bool := c == 32 || (9 ≤ c && c ≤ 13)

/-- The value of a code unit as a digit: `'0'..'9'` are 0..9 and the letters
`'a'..'z'`, `'A'..'Z'` are 10..35. -/
def digitVal (c : Nat) : Option Nat :=
  if 48 ≤ c ∧ c ≤ 57 then some (c - 48)
  else if 97 ≤ c ∧ c ≤ 122 then some (c - 97 + 10)
  else if 65 ≤ c ∧ c ≤ 90 then some (c - 65 + 10)
  else none

/-- Drops the leading white space. -/
def skipSpace : List Nat → List Nat
  | [] => []
  | c :: cs => if isspace c then skipSpace cs else c :: cs

/-- Reads an optional sign `'-'` (45) or `'+'` (43): whether the text is
negated, and the rest. -/
def takeSign : List Nat → Bool × List Nat
  | [] => (false, [])
  | c :: cs => if c = 45 then (true, cs) else if c = 43 then (false, cs) else (false, c :: cs)

/-- Whether the text starts with `0x` or `0X` followed by a hexadecimal digit. -/
def hasHexMark : List Nat → Bool
  | c0 :: x :: d :: _ =>
    c0 == 48 && (x == 120 || x == 88) &&
      (match digitVal d with
       | some v => decide (v < 16)
       | none => false)
  | _ => false

/-- Settles the radix: for base 0 or 16 a hexadecimal mark is skipped and the
radix is 16; otherwise base 0 means octal after a leading `'0'` and decimal
else. Returns the radix and the text the digits are read from. -/
def takeRadix (base : Nat) (s : List Nat) : Nat × List Nat :=
  if (base = 0 ∨ base = 16) ∧ hasHexMark s = true then (16, s.drop 2)
  else if base = 0 then (if s.head? = some 48 then 8 else 10, s)
  else (base, s)

/-- The values of the longest run of digits of the radix at the start of the text. -/
def digitsOf (base : Nat) : List Nat → List Nat
  | [] => []
  | c :: cs =>
    match digitVal c with
    | some d => if d < base then d :: digitsOf base cs else []
    | none => []

/-- The number a list of digit values denotes in the radix, most significant first. -/
def ofDigits (base : Nat) (ds : List Nat) : Nat := ds.foldl (fun a d => a * base + d) 0

/-- The subject sequence of a conversion: its sign, the mathematical value of
its digits and the offset just past its last digit. -/
structure Subject where
  neg : Bool
  mag : Nat
  endp : Nat
deriving DecidableEq, Repr

/-- Finds the subject sequence of `p` for `base`; `none` when the base is
neither 0 nor in 2..36 or when no digit can be read. -/
def subject (p : List Nat) (base : Int) : Option Subject :=
  if base = 0 ∨ (2 ≤ base ∧ base ≤ 36) then
    let s1 := takeSign (skipSpace p)
    let s2 := takeRadix base.toNat s1.2
    let ds := digitsOf s2.1 s2.2
    if ds = [] then none
    else some ⟨s1.1, ofDigits s2.1 ds, p.length - s2.2.length + ds.length⟩
  else none

/-- Modelled from the spec: the host conversion `strtoul` (`wcstoul` for wide
text) that the `STRTOUL` macro, declared outside `util.c`, expands to. Leading
white space is skipped, an optional sign and base-appropriate digits are read,
base 0 detects the radix from the prefix. A value above `ULONG_MAX` is clamped
to it with the range error; a negated value wraps. When nothing can be
converted the value is 0, the stop position is the start and no error is
raised: `errno` stays 0. A base that is neither 0 nor in 2..36 is refused with
`EINVAL`. -/
def strtoul (w : Nat) (p : List Nat) (base : Int) : Conv Nat :=
  if base = 0 ∨ (2 ≤ base ∧ base ≤ 36) then
    match subject p base with
    | none => ⟨0, 0, 0⟩
    | some s =>
      if s.mag > ULONG_MAX w then ⟨ULONG_MAX w, s.endp, ERANGE⟩
      else ⟨if s.neg then (2 ^ w - s.mag) % 2 ^ w else s.mag, s.endp, 0⟩
  else ⟨0, 0, EINVAL⟩

/-- Modelled from the spec: the host conversion `strtol` (`wcstol` for wide
text) that the `STRTOL` macro, declared outside `util.c`, expands to. As
`strtoul`, with the value clamped to `LONG_MAX` or `LONG_MIN` and the range
error raised when it leaves the range of `long`; when nothing can be converted
the value is 0, the stop position is the start and `errno` stays 0. -/
def strtol (w : Nat) (p : List Nat) (base : Int) : Conv Int :=
  if base = 0 ∨ (2 ≤ base ∧ base ≤ 36) then
    match subject p base with
    | none => ⟨0, 0, 0⟩
    | some s =>
      if s.neg then
        if -(s.mag : Int) < LONG_MIN w then ⟨LONG_MIN w, s.endp, ERANGE⟩
        else ⟨-(s.mag : Int), s.endp, 0⟩
      else
        if (s.mag : Int) > LONG_MAX w then ⟨LONG_MAX w, s.endp, ERANGE⟩
        else ⟨(s.mag : Int), s.endp, 0⟩
  else ⟨0, 0, EINVAL⟩

/-- The code units of a text, without the terminator. -/
def units (s : String) : List Nat := s.toList.map Char.toNat

/-- Whether every unit of a text is a decimal digit `'0'..'9'`. -/
def isDecimal (s : List Nat) : Prop := ∀ c ∈ s, 48 ≤ c ∧ c ≤ 57

instance (s : List Nat) : Decidable (isDecimal s) := by
  unfold isDecimal
  infer_instance

/-- The number a text of decimal digits denotes. -/
def decimalValue (s : List Nat) : Nat := ofDigits 10 (s.map (fun c => c - 48))

/-- The decimal text of a number, without leading zeros (`"0"` for 0). -/
def decimal (n : Nat) : List Nat :=
  if n = 0 then [48] else (Nat.digits 10 n).reverse.map (fun d => d + 48)

/-! ## nonblank -/

/-- What `db_eget(sp, lno, &p, &len, &isempty)` leaves behind: a failure (a
non-zero return) with the flag `isempty`, or the line (`p` and its length). -/
inductive Eget where
  | fail (isempty : Int)
  | ok (line : List Nat)
deriving DecidableEq, Repr

/-- The C-locale `isblank`: space and tab. -/
def isblank (c : Nat) : Bool := c == 32 || c == 9

/-- The loop `for (...; len && isblank(*p); ++cnt, ++p, --len);` of `nonblank`,
from the counter `cnt` (also the offset of `p` in the line) and the remaining
length `len`; the result is `(cnt, len)` at the exit, and `none` (undefined
behaviour) is a read outside the line. -/
def blankLoop (line : List Nat) : Nat → Nat → Option (Nat × Nat)
  | cnt, 0 => some (cnt, 0)
  | cnt, len + 1 =>
    match line.get? cnt with
    | none => none
    | some c => if isblank c then blankLoop line (cnt + 1) len else some (cnt, len + 1)

/-- Whether the line has a blank at offset `i`. -/
def blankAt (line : List Nat) (i : Nat) : Bool :=
  match line.get? i with
  | some c => isblank c
  | none => false

/-- The function `nonblank(sp, lno, cnop)`: `db_eget` is the line store, `cno`
is `*cnop` on entry, `w` the width of `size_t`. The result is the returned
code and `*cnop` on exit; the outer `none` is undefined behaviour of the
loop. -/
def nonblank (w : Nat) (db_eget : Nat → Eget) (lno cno : Nat) : Option (Int × Nat) :=
  let off := cno
  match db_eget lno with
  | .fail isempty => some (if isempty = 0 then 1 else 0, 0)
  | .ok line =>
    if line.length = 0 ∨ off ≥ line.length then some (0, 0)
    else
      match blankLoop line off (line.length - off) with
      | none => none
      | some (cnt, len) => some (0, if len ≠ 0 then cnt else (cnt + 2 ^ w - 1) % 2 ^ w)

/-! ## tail -/

/-- The library function `strrchr(s, c)` for a unit `c` other than the
terminator: the offset of the last occurrence of `c` in the text, or `none`
(a null pointer) when there is none. -/
def strrchr : List Nat → Nat → Option Nat
  | [], _ => none
  | x :: xs, c =>
    match strrchr xs c with
    | some i => some (i + 1)
    | none => if x = c then some 0 else none

/-- The function `tail(path)`: the text from the returned pointer on; `'/'` is
the unit 47. -/
def tail (path : List Nat) : List Nat :=
  match strrchr path 47 with
  | none => path
  | some p => path.drop (p + 1)


/-! # Theorems -/

set_option maxRecDepth 20000

/-! ## Arithmetic of the growth path -/

/-- The requested capacity is a `size_t` value. -/
theorem csize_lt (w c m : Nat) : csize w c m < 2 ^ w :=
  Nat.mod_lt _ (Nat.pos_pow_of_pos w (by decide))

/-- Without wrap-around the requested capacity is the plain sum. -/
theorem csize_eq_of_lt {w c m : Nat} (h : c + MAX m 256 < 2 ^ w) : csize w c m = c + MAX m 256 :=
  Nat.mod_eq_of_lt h

/-- `MAX` is at least its first argument. -/
theorem le_MAX_left (a b : Nat) : a ≤ MAX a b := by
  unfold MAX; split <;> omega

/-- `MAX` is at least its second argument. -/
theorem le_MAX_right (a b : Nat) : b ≤ MAX a b := by
  unfold MAX; split <;> omega

/-- The length `csize - *bsizep` passed to `memset`, when the new capacity is
not below the old one. -/
theorem fill_len {w c n : Nat} (hcn : c ≤ n) (hn : n < 2 ^ w) :
    (n + 2 ^ w - c) % 2 ^ w = n - c := by
  have h : n + 2 ^ w - c = (n - c) + 2 ^ w := by omega
  rw [h, Nat.add_mod_right]
  exact Nat.mod_eq_of_lt (by omega)

/-- The growth path of `binc` when the allocator returns a block that holds
the new capacity and the new capacity is not below the old one. -/
theorem binc_grow_eq {w : Nat} {REALLOC : Ptr → Nat → Ptr} {bp : Ptr} {c m : Nat} {b : Block}
    (hslow : ¬ (m ≠ 0 ∧ m ≤ c)) (hr : REALLOC bp (csize w c m) = some b)
    (hcn : c ≤ csize w c m) (hlen : csize w c m ≤ b.bytes.length) :
    binc w REALLOC bp c m =
      some (some ⟨b.addr, b.bytes.take c ++ List.replicate (csize w c m - c) 0 ++
        b.bytes.drop (csize w c m)⟩, csize w c m) := by
  have hn := csize_lt w c m
  have hfill := fill_len hcn hn
  have hslow' : ¬ (m ≠ 0 ∧ c ≥ m) := hslow
  have hcc : c + (csize w c m - c) = csize w c m := by omega
  simp only [binc, if_neg hslow', hr, hfill, memset, hcc, if_pos hlen]

/-! ## binc: the fast path -/

/-- C1 (as stated, refuted): with minimum 0 the call is not a no-op. On a
buffer of capacity 2 and an allocator that succeeds, `binc` with `min = 0`
reallocates and leaves the capacity 258, not 2. -/
theorem binc_min_zero_grows :
    (0 = 0 ∨ 0 ≤ 2) ∧
    binc 64 reallocOk (some ⟨0, [5, 6]⟩) 2 0 ≠ some (some ⟨0, [5, 6]⟩, 2) ∧
    (binc 64 reallocOk (some ⟨0, [5, 6]⟩) 2 0).map Prod.snd = some 258 := by
  refine ⟨Or.inl rfl, ?_, ?_⟩ <;> decide

/-- C1 (amended): `binc` is a no-op whenever the minimum is not 0 and is at
most the current capacity: it returns exactly `bp` and leaves the capacity
unchanged, whatever the allocator would do. -/
theorem binc_noop (w : Nat) (REALLOC : Ptr → Nat → Ptr) (bp : Ptr) (c m : Nat)
    (hm : m ≠ 0) (hc : m ≤ c) : binc w REALLOC bp c m = some (bp, c) := by
  have h : m ≠ 0 ∧ c ≥ m := ⟨hm, hc⟩
  simp only [binc, if_pos h]

/-- Witness of `binc_noop`: capacity 2, minimum 1, an allocator that would fail. -/
theorem binc_noop_witness :
    (1 ≠ 0 ∧ 1 ≤ 2) ∧
    binc 64 reallocFail (some ⟨0, [5, 6]⟩) 2 1 = some (some ⟨0, [5, 6]⟩, 2) :=
  ⟨by decide, binc_noop 64 reallocFail (some ⟨0, [5, 6]⟩) 2 1 (by decide) (by decide)⟩

/-! ## binc: the capacity after a growth -/

/-- C2 (as stated, refuted): in `size_t` arithmetic the new capacity can wrap.
With a 64-bit `size_t`, capacity 2 and minimum `2 ^ 64 - 1` the request is for
`(2 + (2 ^ 64 - 1)) % 2 ^ 64 = 1` unit, the reallocation succeeds, and the call
does not end with a capacity of at least the minimum (the zero fill runs
outside the block). -/
theorem binc_wraps_below_min :
    0 < 18446744073709551615 ∧ 2 < 18446744073709551615 ∧
    csize 64 2 18446744073709551615 = 1 ∧
    reallocOk (some ⟨0, [5, 6]⟩) (csize 64 2 18446744073709551615) = some ⟨1, [5]⟩ ∧
    ¬ ∃ p n, binc 64 reallocOk (some ⟨0, [5, 6]⟩) 2 18446744073709551615 = some (p, n) ∧
      18446744073709551615 ≤ n := by
  refine ⟨by decide, by decide, by decide, by decide, ?_⟩
  have h : binc 64 reallocOk (some ⟨0, [5, 6]⟩) 2 18446744073709551615 = none := by decide
  rw [h]
  simp

/-- C2 (amended): for every minimum `m > 0` and capacity `c < m` such that
`c + max(m, 256)` does not exceed `SIZE_MAX`, when the reallocation succeeds
with a block that holds the requested capacity, `binc` returns a buffer and
the tracked capacity after the call is at least `m`. -/
theorem binc_capacity_ge_min (w : Nat) (REALLOC : Ptr → Nat → Ptr) (bp : Ptr) (c m : Nat)
    (b : Block) (_hm : 0 < m) (hc : c < m) (hno : c + MAX m 256 < 2 ^ w)
    (hr : REALLOC bp (csize w c m) = some b) (hlen : csize w c m ≤ b.bytes.length) :
    ∃ b' n, binc w REALLOC bp c m = some (some b', n) ∧ m ≤ n := by
  have hcs := csize_eq_of_lt hno
  have hmx := le_MAX_left m 256
  have hslow : ¬ (m ≠ 0 ∧ m ≤ c) := by omega
  exact ⟨_, _, binc_grow_eq hslow hr (by omega) hlen, by omega⟩

/-- Witness of `binc_capacity_ge_min`: capacity 2, minimum 300, 64-bit sizes. -/
theorem binc_capacity_ge_min_witness :
    ∃ b' n, binc 64 reallocOk (some ⟨0, [5, 6]⟩) 2 300 = some (some b', n) ∧ 300 ≤ n :=
  binc_capacity_ge_min 64 reallocOk (some ⟨0, [5, 6]⟩) 2 300
    ⟨1, [5, 6] ++ List.replicate 300 170⟩ (by decide) (by decide) (by decide) (by decide)
    (by decide)

/-- C3: when `binc` grows a buffer whose `c` units are the old content and the
allocator returns a block of the new capacity whose first `c` units equal the
old content, the returned buffer is the old content followed by zeros up to
the new capacity: every added unit is 0 and no prior unit has changed. -/
theorem binc_zero_fills (w : Nat) (REALLOC : Ptr → Nat → Ptr) (bp : Ptr) (c m : Nat) (b : Block)
    (hslow : ¬ (m ≠ 0 ∧ m ≤ c)) (hold : (content bp).length = c)
    (hr : REALLOC bp (csize w c m) = some b) (hlen : b.bytes.length = csize w c m)
    (hpre : b.bytes.take c = content bp) :
    ∃ b', binc w REALLOC bp c m = some (some b', csize w c m) ∧
      b'.addr = b.addr ∧
      b'.bytes = content bp ++ List.replicate (csize w c m - c) 0 ∧
      b'.bytes.length = csize w c m ∧
      (∀ i, i < c → b'.bytes[i]? = (content bp)[i]?) ∧
      (∀ i, c ≤ i → i < csize w c m → b'.bytes[i]? = some 0) := by
  have hcn : c ≤ csize w c m := by
    have h := congrArg List.length hpre
    rw [List.length_take, hold, hlen] at h
    omega
  have hdrop : b.bytes.drop (csize w c m) = [] := by
    rw [← hlen]; exact List.drop_length _
  refine ⟨_, binc_grow_eq hslow hr hcn (le_of_eq hlen.symm), rfl, ?_, ?_, ?_, ?_⟩
  · simp only [hpre, hdrop, List.append_nil]
  · simp only [hpre, hdrop, List.append_nil, List.length_append, List.length_replicate, hold]
    omega
  · intro i hi
    simp only [hpre, hdrop, List.append_nil]
    exact List.getElem?_append_left (by omega)
  · intro i hci hin
    simp only [hpre, hdrop, List.append_nil]
    rw [List.getElem?_append_right (by omega), hold, List.getElem?_replicate]
    have : i - c < csize w c m - c := by omega
    simp [this]

/-- Witness of `binc_zero_fills`: a buffer `[5, 6]` of capacity 2 grown with
minimum 3 to capacity 258. -/
theorem binc_zero_fills_witness :
    ∃ b', binc 64 reallocOk (some ⟨0, [5, 6]⟩) 2 3 = some (some b', csize 64 2 3) ∧
      b'.addr = 1 ∧
      b'.bytes = [5, 6] ++ List.replicate (csize 64 2 3 - 2) 0 ∧
      b'.bytes.length = csize 64 2 3 ∧
      (∀ i, i < 2 → b'.bytes[i]? = [5, 6][i]?) ∧
      (∀ i, 2 ≤ i → i < csize 64 2 3 → b'.bytes[i]? = some 0) :=
  binc_zero_fills 64 reallocOk (some ⟨0, [5, 6]⟩) 2 3 ⟨1, [5, 6] ++ List.replicate 256 170⟩
    (by decide) (by decide) (by decide) (by decide) (by decide)

/-- C4 (as stated, refuted): with a 32-bit `size_t`, capacity 3 and minimum
`2 ^ 32 - 1` the growth path is taken and the reallocation succeeds, but the
request wraps to 2 units and the call does not end with the capacity
`3 + max(2 ^ 32 - 1, 256)`, nor with one that is 256 above the old one. -/
theorem binc_sum_wraps :
    ¬ (4294967295 ≠ 0 ∧ 4294967295 ≤ 3) ∧
    csize 32 3 4294967295 = 2 ∧
    reallocOk (some ⟨0, [5, 6, 7]⟩) (csize 32 3 4294967295) = some ⟨1, [5, 6]⟩ ∧
    (¬ ∃ p, binc 32 reallocOk (some ⟨0, [5, 6, 7]⟩) 3 4294967295 =
      some (p, 3 + MAX 4294967295 256)) ∧
    ¬ ∃ p n, binc 32 reallocOk (some ⟨0, [5, 6, 7]⟩) 3 4294967295 = some (p, n) ∧ 3 + 256 ≤ n := by
  have h : binc 32 reallocOk (some ⟨0, [5, 6, 7]⟩) 3 4294967295 = none := by decide
  refine ⟨by decide, by decide, by decide, ?_, ?_⟩ <;> rw [h] <;> simp

/-- C4 (amended): whenever `binc` does not take the fast path, the sum
`c + max(m, 256)` does not exceed `SIZE_MAX` and the reallocation succeeds with
a block that holds the requested capacity, the tracked capacity after the call
is `c + max(m, 256)`; with `m = 0` that is `c + 256`, and it is always at least
`c + 256`. -/
theorem binc_capacity_eq (w : Nat) (REALLOC : Ptr → Nat → Ptr) (bp : Ptr) (c m : Nat) (b : Block)
    (hslow : ¬ (m ≠ 0 ∧ m ≤ c)) (hno : c + MAX m 256 < 2 ^ w)
    (hr : REALLOC bp (csize w c m) = some b) (hlen : csize w c m ≤ b.bytes.length) :
    (∃ b', binc w REALLOC bp c m = some (some b', c + MAX m 256)) ∧
      (m = 0 → c + MAX m 256 = c + 256) ∧ c + 256 ≤ c + MAX m 256 := by
  have hcs := csize_eq_of_lt hno
  have hmx := le_MAX_right m 256
  have h := binc_grow_eq hslow hr (by omega) hlen
  rw [hcs] at h
  refine ⟨⟨_, h⟩, ?_, by omega⟩
  intro h0
  subst h0
  rfl

/-- Witness of `binc_capacity_eq`: capacity 2 and minimum 0 give capacity 258. -/
theorem binc_capacity_eq_witness :
    (∃ b', binc 64 reallocOk (some ⟨0, [5, 6]⟩) 2 0 = some (some b', 2 + MAX 0 256)) ∧
      (0 = 0 → 2 + MAX 0 256 = 2 + 256) ∧ 2 + 256 ≤ 2 + MAX 0 256 :=
  binc_capacity_eq 64 reallocOk (some ⟨0, [5, 6]⟩) 2 0 ⟨1, [5, 6] ++ List.replicate 256 170⟩
    (by decide) (by decide) (by decide) (by decide)

/-- C5: when `binc` needs to grow and the reallocation fails, it returns null
and sets the tracked capacity to 0, whatever the prior capacity and the
minimum; and on the growth path a call that returns null is one whose
reallocation failed. -/
theorem binc_null_iff_fail (w : Nat) (REALLOC : Ptr → Nat → Ptr) (bp : Ptr) (c m : Nat)
    (hslow : ¬ (m ≠ 0 ∧ m ≤ c)) :
    (REALLOC bp (csize w c m) = none → binc w REALLOC bp c m = some (none, 0)) ∧
    ((∃ n, binc w REALLOC bp c m = some (none, n)) ↔ REALLOC bp (csize w c m) = none) := by
  have hslow' : ¬ (m ≠ 0 ∧ c ≥ m) := hslow
  have hfail : REALLOC bp (csize w c m) = none → binc w REALLOC bp c m = some (none, 0) := by
    intro h
    simp only [binc, if_neg hslow', h]
  refine ⟨hfail, ?_, fun h => ⟨0, hfail h⟩⟩
  rintro ⟨n, hn⟩
  cases hr : REALLOC bp (csize w c m) with
  | none => rfl
  | some b =>
    simp only [binc, if_neg hslow', hr] at hn
    split at hn <;> simp at hn

/-- Witness of `binc_null_iff_fail`: capacity 2, minimum 3, a failing allocator. -/
theorem binc_null_iff_fail_witness :
    (reallocFail (some ⟨0, [5, 6]⟩) (csize 64 2 3) = none →
      binc 64 reallocFail (some ⟨0, [5, 6]⟩) 2 3 = some (none, 0)) ∧
    ((∃ n, binc 64 reallocFail (some ⟨0, [5, 6]⟩) 2 3 = some (none, n)) ↔
      reallocFail (some ⟨0, [5, 6]⟩) (csize 64 2 3) = none) :=
  binc_null_iff_fail 64 reallocFail (some ⟨0, [5, 6]⟩) 2 3 (by decide)

/-- C6 (as stated, refuted): a growth request whose reallocation fails leaves
the tracked capacity 0, below the capacity 2 it had. -/
theorem binc_fail_resets_capacity :
    binc 64 reallocFail (some ⟨0, [5, 6]⟩) 2 3 = some (none, 0) ∧
    ¬ ∃ p n, binc 64 reallocFail (some ⟨0, [5, 6]⟩) 2 3 = some (p, n) ∧ 2 ≤ n := by
  have h : binc 64 reallocFail (some ⟨0, [5, 6]⟩) 2 3 = some (none, 0) := by decide
  refine ⟨h, ?_⟩
  rw [h]
  simp

/-- C6 (amended): capacity never shrinks in a call that succeeds. For every
call of `binc` that takes the fast path, or whose reallocation succeeds with a
block that holds the requested capacity while `c + max(m, 256)` does not
exceed `SIZE_MAX`, the call returns and the tracked capacity after it is at
least `c`. -/
theorem binc_capacity_mono (w : Nat) (REALLOC : Ptr → Nat → Ptr) (bp : Ptr) (c m : Nat)
    (hok : (m ≠ 0 ∧ m ≤ c) ∨
      (c + MAX m 256 < 2 ^ w ∧
        ∃ b, REALLOC bp (csize w c m) = some b ∧ csize w c m ≤ b.bytes.length)) :
    ∃ p n, binc w REALLOC bp c m = some (p, n) ∧ c ≤ n := by
  by_cases hfast : m ≠ 0 ∧ m ≤ c
  · have h : m ≠ 0 ∧ c ≥ m := hfast
    exact ⟨bp, c, by simp only [binc, if_pos h], le_refl c⟩
  · rcases hok with hf | ⟨hno, b, hr, hlen⟩
    · exact absurd hf hfast
    · have hcs := csize_eq_of_lt hno
      exact ⟨_, _, binc_grow_eq hfast hr (by omega) hlen, by omega⟩

/-- Witness of `binc_capacity_mono`: capacity 2 and minimum 3 with an allocator
that succeeds. -/
theorem binc_capacity_mono_witness :
    ∃ p n, binc 64 reallocOk (some ⟨0, [5, 6]⟩) 2 3 = some (p, n) ∧ 2 ≤ n :=
  binc_capacity_mono 64 reallocOk (some ⟨0, [5, 6]⟩) 2 3
    (Or.inr ⟨by decide, ⟨1, [5, 6] ++ List.replicate 256 170⟩, by decide, by decide⟩)

/-! ## v_strdup, v_wstrdup -/

/-- Copying `len` units into a block of `len + 1` units and storing the
terminator at index `len` gives the first `len` source units followed by 0,
and leaves the source as it was. -/
theorem copy_then_terminate (dst str : List Nat) (len : Nat) (hsrc : len ≤ str.length)
    (hlen : dst.length = len + 1) :
    memcpy dst str len = some (str.take len ++ dst.drop len, str) ∧
    store (str.take len ++ dst.drop len) len 0 = some (str.take len ++ [0]) := by
  have hd : len ≤ dst.length := by omega
  have htl : (str.take len).length = len := by
    rw [List.length_take]; omega
  have hdl : (dst.drop len).length = 1 := by
    rw [List.length_drop]; omega
  refine ⟨by simp only [memcpy, hd, hsrc, and_self, if_true], ?_⟩
  have hlt : len < (str.take len ++ dst.drop len).length := by
    rw [List.length_append, htl, hdl]; omega
  simp only [store, if_pos hlt]
  match hdd : dst.drop len, hdl with
  | [x], _ =>
    have h : ((str.take len) ++ [x]).set len 0 = str.take len ++ [x].set (len - (str.take len).length) 0 :=
      List.set_append_right len 0 (by omega)
    rw [h, htl, Nat.sub_self]
    rfl

/-- C7: for every source span `str` and length `len` within it, when the
allocation yields a block of `len + 1` units, `v_strdup` (byte units) and
`v_wstrdup` (wide units) each return that block holding the first `len` units
of `str` followed by the terminator 0, whatever zero units the source has
among them, and the source is as before; when the allocation fails each
returns null. -/
theorem v_strdup_copies (w sz : Nat) (MALLOC : Nat → Ptr) (str : List Nat) (len : Nat)
    (hsrc : len ≤ str.length) :
    (∀ copy, MALLOC ((len + 1) % 2 ^ w) = some copy → copy.bytes.length = len + 1 →
      v_strdup w MALLOC str len = some (some ⟨copy.addr, str.take len ++ [0]⟩, str) ∧
      (str.take len ++ [0]).length = len + 1 ∧
      (∀ i, i < len → (str.take len ++ [0])[i]? = str[i]?) ∧
      (str.take len ++ [0])[len]? = some 0) ∧
    (MALLOC ((len + 1) % 2 ^ w) = none → v_strdup w MALLOC str len = some (none, str)) ∧
    (∀ copy, MALLOC (((len + 1) % 2 ^ w * sz) % 2 ^ w) = some copy →
      copy.bytes.length = len + 1 →
      v_wstrdup w sz MALLOC str len = some (some ⟨copy.addr, str.take len ++ [0]⟩, str)) ∧
    (MALLOC (((len + 1) % 2 ^ w * sz) % 2 ^ w) = none →
      v_wstrdup w sz MALLOC str len = some (none, str)) := by
  have htl : (str.take len).length = len := by
    rw [List.length_take]; omega
  refine ⟨fun copy hm hlen => ⟨?_, ?_, ?_, ?_⟩, fun hm => ?_, fun copy hm hlen => ?_, fun hm => ?_⟩
  · obtain ⟨h1, h2⟩ := copy_then_terminate copy.bytes str len hsrc hlen
    simp only [v_strdup, hm, h1, h2]
  · rw [List.length_append, htl]; rfl
  · intro i hi
    rw [List.getElem?_append_left (by omega), List.getElem?_take_of_lt hi]
  · rw [List.getElem?_append_right (by omega), htl, Nat.sub_self]; rfl
  · simp only [v_strdup, hm]
  · obtain ⟨h1, h2⟩ := copy_then_terminate copy.bytes str len hsrc hlen
    simp only [v_wstrdup, hm, h1, h2]
  · simp only [v_wstrdup, hm]

/-- Witness of `v_strdup_copies`: the first 4 units of `[1, 0, 2, 0, 7, 7]`,
two of them zero, duplicated as bytes and as 4-byte wide units. -/
theorem v_strdup_copies_witness :
    4 ≤ [1, 0, 2, 0, 7, 7].length ∧
    v_strdup 64 (mallocOk 1) [1, 0, 2, 0, 7, 7] 4 =
      some (some ⟨2, [1, 0, 2, 0, 0]⟩, [1, 0, 2, 0, 7, 7]) ∧
    v_wstrdup 64 4 (mallocOk 4) [1, 0, 2, 0, 7, 7] 4 =
      some (some ⟨2, [1, 0, 2, 0, 0]⟩, [1, 0, 2, 0, 7, 7]) ∧
    v_strdup 64 mallocFail [1, 0, 2, 0, 7, 7] 4 = some (none, [1, 0, 2, 0, 7, 7]) :=
  ⟨by decide,
   ((v_strdup_copies 64 1 (mallocOk 1) [1, 0, 2, 0, 7, 7] 4 (by decide)).1
      ⟨2, List.replicate 5 170⟩ (by decide) (by decide)).1,
   (v_strdup_copies 64 4 (mallocOk 4) [1, 0, 2, 0, 7, 7] 4 (by decide)).2.2.1
      ⟨2, List.replicate 5 170⟩ (by decide) (by decide),
   (v_strdup_copies 64 1 mallocFail [1, 0, 2, 0, 7, 7] 4 (by decide)).2.1 (by decide)⟩

/-! ## nget_uslong, nget_slong -/

/-- The two limits of `long` differ, for every width. -/
theorem LONG_MIN_lt_LONG_MAX (w : Nat) : LONG_MIN w < LONG_MAX w := by
  have h : (0 : Int) < 2 ^ (w - 1) := by positivity
  unfold LONG_MIN LONG_MAX
  omega

/-- C8: `nget_slong` classifies by the error state and value the conversion
leaves. The result is OK iff no error was raised, OVERFLOW iff the range error
was raised with value `LONG_MAX`, UNDERFLOW iff the range error was raised with
value `LONG_MIN`, and ERROR in every other case; the stored value and stop
position are the conversion's. -/
theorem nget_slong_classifies (w : Nat) (STRTOL : List Nat → Int → Conv Int) (p : List Nat)
    (base : Int) :
    ((nget_slong w STRTOL p base).res = .NUM_OK ↔ (STRTOL p base).errno = 0) ∧
    ((nget_slong w STRTOL p base).res = .NUM_OVER ↔
      (STRTOL p base).errno = ERANGE ∧ (STRTOL p base).val = LONG_MAX w) ∧
    ((nget_slong w STRTOL p base).res = .NUM_UNDER ↔
      (STRTOL p base).errno = ERANGE ∧ (STRTOL p base).val = LONG_MIN w) ∧
    ((nget_slong w STRTOL p base).res = .NUM_ERR ↔
      (STRTOL p base).errno ≠ 0 ∧
        ¬ ((STRTOL p base).errno = ERANGE ∧
          ((STRTOL p base).val = LONG_MAX w ∨ (STRTOL p base).val = LONG_MIN w))) ∧
    (nget_slong w STRTOL p base).val = (STRTOL p base).val ∧
    (nget_slong w STRTOL p base).endp = (STRTOL p base).endp := by
  have hne := ne_of_lt (LONG_MIN_lt_LONG_MAX w)
  have hE : ERANGE ≠ 0 := by decide
  unfold nget_slong
  by_cases h0 : (STRTOL p base).errno = 0
  · have hr : (STRTOL p base).errno ≠ ERANGE := by rw [h0]; exact hE.symm
    simp [h0, hE.symm]
  · by_cases hr : (STRTOL p base).errno = ERANGE
    · by_cases hmax : (STRTOL p base).val = LONG_MAX w
      · have hmin : LONG_MAX w ≠ LONG_MIN w := hne.symm
        simp [hr, hE, hmax, hmin]
      · by_cases hmin : (STRTOL p base).val = LONG_MIN w
        · simp [hr, hE, hmin, hne]
        · simp [hr, hE, hmax, hmin]
    · simp [h0, hr]

/-- C9: `nget_uslong` classifies by the error state and value the conversion
leaves. The result is OK iff no error was raised, OVERFLOW iff the range error
was raised with value `ULONG_MAX`, ERROR otherwise, and never UNDERFLOW; the
stored value and stop position are the conversion's. -/
theorem nget_uslong_classifies (w : Nat) (STRTOUL : List Nat → Int → Conv Nat) (p : List Nat)
    (base : Int) :
    ((nget_uslong w STRTOUL p base).res = .NUM_OK ↔ (STRTOUL p base).errno = 0) ∧
    ((nget_uslong w STRTOUL p base).res = .NUM_OVER ↔
      (STRTOUL p base).errno = ERANGE ∧ (STRTOUL p base).val = ULONG_MAX w) ∧
    ((nget_uslong w STRTOUL p base).res = .NUM_ERR ↔
      (STRTOUL p base).errno ≠ 0 ∧
        ¬ ((STRTOUL p base).errno = ERANGE ∧ (STRTOUL p base).val = ULONG_MAX w)) ∧
    (nget_uslong w STRTOUL p base).res ≠ .NUM_UNDER ∧
    (nget_uslong w STRTOUL p base).val = (STRTOUL p base).val ∧
    (nget_uslong w STRTOUL p base).endp = (STRTOUL p base).endp := by
  have hE : ERANGE ≠ 0 := by decide
  unfold nget_uslong
  by_cases h0 : (STRTOUL p base).errno = 0
  · simp [h0, hE.symm]
  · by_cases hr : (STRTOUL p base).errno = ERANGE ∧ (STRTOUL p base).val = ULONG_MAX w
    · simp [hr.1, hr.2, hE]
    · simp [h0, hr]

/-- A decimal digit has its face value. -/
theorem digitVal_decimal {c : Nat} (h : 48 ≤ c ∧ c ≤ 57) : digitVal c = some (c - 48) := by
  simp only [digitVal, if_pos h]

/-- Every unit of a decimal text is read as a digit of radix 10. -/
theorem digitsOf_decimal (s : List Nat) (hs : isDecimal s) :
    digitsOf 10 s = s.map (fun c => c - 48) := by
  induction s with
  | nil => rfl
  | cons c cs ih =>
    have hc : 48 ≤ c ∧ c ≤ 57 := hs c (List.mem_cons_self c cs)
    have hlt : c - 48 < 10 := by omega
    have hcs : isDecimal cs := fun x hx => hs x (List.mem_cons_of_mem c hx)
    simp only [digitsOf, digitVal_decimal hc, if_pos hlt, ih hcs, List.map_cons]

/-- A text that starts with a decimal digit has no white space to skip. -/
theorem skipSpace_digit {c : Nat} (cs : List Nat) (h : 48 ≤ c ∧ c ≤ 57) :
    skipSpace (c :: cs) = c :: cs := by
  have hsp : isspace c = false := by
    simp only [isspace, Bool.or_eq_false_iff, Bool.and_eq_false_iff, beq_eq_false_iff_ne,
      decide_eq_false_iff_not]
    omega
  simp [skipSpace, hsp]

/-- A text that starts with a decimal digit has no sign. -/
theorem takeSign_digit {c : Nat} (cs : List Nat) (h : 48 ≤ c ∧ c ≤ 57) :
    takeSign (c :: cs) = (false, c :: cs) := by
  have h1 : c ≠ 45 := by omega
  have h2 : c ≠ 43 := by omega
  simp only [takeSign, if_neg h1, if_neg h2]

/-- The subject sequence of a non-empty decimal text in base 10 is the whole
text, not negated, with the value the text denotes. -/
theorem subject_decimal (s : List Nat) (hs : isDecimal s) (hne : s ≠ []) :
    subject s 10 = some ⟨false, decimalValue s, s.length⟩ := by
  match s, hne with
  | c :: cs, _ =>
    have hc : 48 ≤ c ∧ c ≤ 57 := hs c (List.mem_cons_self c cs)
    have hb : (10 : Int) = 0 ∨ (2 ≤ (10 : Int) ∧ (10 : Int) ≤ 36) := by decide
    have hr : takeRadix 10 (c :: cs) = (10, c :: cs) := by simp [takeRadix]
    have hd := digitsOf_decimal (c :: cs) hs
    have hnil : ¬ (List.map (fun c => c - 48) (c :: cs) = []) := by simp
    have hto : (10 : Int).toNat = 10 := rfl
    simp only [subject, if_pos hb, skipSpace_digit cs hc, takeSign_digit cs hc, hto, hr, hd,
      if_neg hnil, decimalValue, List.length_map]
    simp

/-- The subject sequence of `'-'` followed by a non-empty decimal text in base
10 is the whole text, negated. -/
theorem subject_minus_decimal (s : List Nat) (hs : isDecimal s) (hne : s ≠ []) :
    subject (45 :: s) 10 = some ⟨true, decimalValue s, s.length + 1⟩ := by
  match s, hne with
  | c :: cs, _ =>
    have hb : (10 : Int) = 0 ∨ (2 ≤ (10 : Int) ∧ (10 : Int) ≤ 36) := by decide
    have hsk : skipSpace (45 :: c :: cs) = 45 :: c :: cs := by simp [skipSpace, isspace]
    have hsg : takeSign (45 :: c :: cs) = (true, c :: cs) := by simp [takeSign]
    have hr : takeRadix 10 (c :: cs) = (10, c :: cs) := by simp [takeRadix]
    have hd := digitsOf_decimal (c :: cs) hs
    have hnil : ¬ (List.map (fun c => c - 48) (c :: cs) = []) := by simp
    have hto : (10 : Int).toNat = 10 := rfl
    simp only [subject, if_pos hb, hsk, hsg, hto, hr, hd, if_neg hnil, decimalValue,
      List.length_map]
    simp
    omega

/-- C11: for every non-empty text of decimal digits whose value is at most
`ULONG_MAX`, `nget_uslong` in base 10 returns OK, stores that value and sets
the stop position to the end of the text. -/
theorem nget_uslong_decimal_ok (w : Nat) (s : List Nat) (hs : isDecimal s) (hne : s ≠ [])
    (hv : decimalValue s ≤ ULONG_MAX w) :
    nget_uslong w (strtoul w) s 10 = ⟨.NUM_OK, decimalValue s, s.length⟩ := by
  have hsub := subject_decimal s hs hne
  have hgt : ¬ decimalValue s > ULONG_MAX w := by omega
  simp [nget_uslong, strtoul, hsub, hgt]

/-- Witness of `nget_uslong_decimal_ok`: `"123"` gives OK, 123 and the stop
position 3. -/
theorem nget_uslong_decimal_ok_witness :
    nget_uslong 64 (strtoul 64) (units "123") 10 = ⟨.NUM_OK, 123, 3⟩ :=
  nget_uslong_decimal_ok 64 (units "123") (by decide) (by decide) (by decide)

/-- C12: for every text of decimal digits whose value exceeds `ULONG_MAX`,
`nget_uslong` in base 10 returns OVERFLOW and the stored value is
`ULONG_MAX`; the stop position is the end of the text. -/
theorem nget_uslong_decimal_over (w : Nat) (s : List Nat) (hs : isDecimal s)
    (hv : ULONG_MAX w < decimalValue s) :
    nget_uslong w (strtoul w) s 10 = ⟨.NUM_OVER, ULONG_MAX w, s.length⟩ := by
  have hne : s ≠ [] := by
    rintro rfl
    simp [decimalValue, ofDigits] at hv
  have hsub := subject_decimal s hs hne
  have hE : ERANGE ≠ 0 := by decide
  simp [nget_uslong, strtoul, hsub, hv, hE]

/-- Witness of `nget_uslong_decimal_over`: `2 ^ 64` with a 64-bit `long`. -/
theorem nget_uslong_decimal_over_witness :
    nget_uslong 64 (strtoul 64) (units "18446744073709551616") 10 =
      ⟨.NUM_OVER, ULONG_MAX 64, 20⟩ :=
  nget_uslong_decimal_over 64 (units "18446744073709551616") (by decide) (by decide)

/-- Reading a reversed list of digits most significant first gives the number
whose digits, least significant first, the list holds. -/
theorem ofDigits_reverse (b : Nat) (l : List Nat) : ofDigits b l.reverse = Nat.ofDigits b l := by
  induction l with
  | nil => rfl
  | cons d ds ih =>
    rw [Nat.ofDigits_cons, ← ih]
    simp only [ofDigits, List.reverse_cons, List.foldl_append, List.foldl_cons, List.foldl_nil]
    ring

/-- The decimal text of a number is a non-empty text of decimal digits that
denotes the number. -/
theorem decimal_spec (n : Nat) :
    isDecimal (decimal n) ∧ decimal n ≠ [] ∧ decimalValue (decimal n) = n := by
  by_cases h0 : n = 0
  · subst h0
    decide
  · have hne : Nat.digits 10 n ≠ [] := Nat.digits_ne_nil_iff_ne_zero.mpr h0
    refine ⟨?_, ?_, ?_⟩
    · intro c hc
      simp only [decimal, if_neg h0, List.mem_map, List.mem_reverse] at hc
      obtain ⟨d, hd, rfl⟩ := hc
      have := Nat.digits_lt_base (by decide : 1 < 10) hd
      omega
    · simp only [decimal, if_neg h0]
      simpa using hne
    · have hmap : List.map (fun c => c - 48) (List.map (fun d => d + 48) (Nat.digits 10 n).reverse)
          = (Nat.digits 10 n).reverse := by
        rw [List.map_map]
        conv_rhs => rw [← List.map_id (Nat.digits 10 n).reverse]
        apply List.map_congr_left
        intro a _
        simp
      simp only [decimal, if_neg h0, decimalValue, hmap, ofDigits_reverse, Nat.ofDigits_digits]

/-- C13: for every text of `'-'` followed by decimal digits whose magnitude
exceeds that of `LONG_MIN`, `nget_slong` in base 10 returns UNDERFLOW and the
stored value is `LONG_MIN`; and for every text of decimal digits whose value
exceeds `LONG_MAX` it returns OVERFLOW and the stored value is `LONG_MAX`. -/
theorem nget_slong_decimal_clamps (w : Nat) (s : List Nat) (hs : isDecimal s) :
    (-(decimalValue s : Int) < LONG_MIN w →
      nget_slong w (strtol w) (45 :: s) 10 = ⟨.NUM_UNDER, LONG_MIN w, s.length + 1⟩) ∧
    ((decimalValue s : Int) > LONG_MAX w →
      nget_slong w (strtol w) s 10 = ⟨.NUM_OVER, LONG_MAX w, s.length⟩) := by
  have hlt := LONG_MIN_lt_LONG_MAX w
  have hmin0 : LONG_MIN w < 0 := by
    have h : (0 : Int) < 2 ^ (w - 1) := by positivity
    unfold LONG_MIN
    omega
  have hmax0 : 0 ≤ LONG_MAX w := by
    have h : (0 : Int) < 2 ^ (w - 1) := by positivity
    unfold LONG_MAX
    omega
  have hE : ERANGE ≠ 0 := by decide
  constructor
  · intro hv
    have hne : s ≠ [] := by
      rintro rfl
      simp [decimalValue, ofDigits] at hv
      omega
    have hsub := subject_minus_decimal s hs hne
    have hmm : LONG_MIN w ≠ LONG_MAX w := ne_of_lt hlt
    simp [nget_slong, strtol, hsub, hv, hE, hmm]
  · intro hv
    have hne : s ≠ [] := by
      rintro rfl
      simp [decimalValue, ofDigits] at hv
      omega
    have hsub := subject_decimal s hs hne
    have hv' : LONG_MAX w < (decimalValue s : Int) := hv
    simp [nget_slong, strtol, hsub, hv', hE]

/-- Witness of `nget_slong_decimal_clamps`: `"-99999999999999999999"` and
`"99999999999999999999"` with a 64-bit `long`. -/
theorem nget_slong_decimal_clamps_witness :
    nget_slong 64 (strtol 64) (units "-99999999999999999999") 10 =
      ⟨.NUM_UNDER, LONG_MIN 64, 21⟩ ∧
    nget_slong 64 (strtol 64) (units "99999999999999999999") 10 =
      ⟨.NUM_OVER, LONG_MAX 64, 20⟩ :=
  ⟨(nget_slong_decimal_clamps 64 (units "99999999999999999999") (by decide)).1 (by decide),
   (nget_slong_decimal_clamps 64 (units "99999999999999999999") (by decide)).2 (by decide)⟩

/-- C14: the classification tells a parsed extreme from a clamped one. The
decimal text of `LONG_MAX`, and `'-'` with the decimal text of the magnitude
of `LONG_MIN`, parse with `nget_slong` to OK with that extreme as value, as
does the decimal text of `ULONG_MAX` with `nget_uslong`; any decimal text one
larger in magnitude gives OVERFLOW or UNDERFLOW with the same stored value. -/
theorem nget_extreme_exact (w : Nat) :
    nget_slong w (strtol w) (decimal (LONG_MAX w).natAbs) 10 =
      ⟨.NUM_OK, LONG_MAX w, (decimal (LONG_MAX w).natAbs).length⟩ ∧
    nget_slong w (strtol w) (45 :: decimal (LONG_MIN w).natAbs) 10 =
      ⟨.NUM_OK, LONG_MIN w, (decimal (LONG_MIN w).natAbs).length + 1⟩ ∧
    nget_uslong w (strtoul w) (decimal (ULONG_MAX w)) 10 =
      ⟨.NUM_OK, ULONG_MAX w, (decimal (ULONG_MAX w)).length⟩ ∧
    (∀ s, isDecimal s → decimalValue s = (LONG_MAX w).natAbs + 1 →
      nget_slong w (strtol w) s 10 = ⟨.NUM_OVER, LONG_MAX w, s.length⟩) ∧
    (∀ s, isDecimal s → decimalValue s = (LONG_MIN w).natAbs + 1 →
      nget_slong w (strtol w) (45 :: s) 10 = ⟨.NUM_UNDER, LONG_MIN w, s.length + 1⟩) ∧
    (∀ s, isDecimal s → decimalValue s = ULONG_MAX w + 1 →
      nget_uslong w (strtoul w) s 10 = ⟨.NUM_OVER, ULONG_MAX w, s.length⟩) := by
  have hpow : (0 : Int) < 2 ^ (w - 1) := by positivity
  have hmaxabs : ((LONG_MAX w).natAbs : Int) = LONG_MAX w := by
    rw [Int.natCast_natAbs]
    exact abs_of_nonneg (by unfold LONG_MAX; omega)
  have hminabs : ((LONG_MIN w).natAbs : Int) = -LONG_MIN w := by
    rw [Int.natCast_natAbs]
    exact abs_of_nonpos (by unfold LONG_MIN; omega)
  have hE : ERANGE ≠ 0 := by decide
  refine ⟨?_, ?_, ?_, ?_, ?_, ?_⟩
  · obtain ⟨hd, hne, hv⟩ := decimal_spec (LONG_MAX w).natAbs
    have hsub := subject_decimal _ hd hne
    simp [nget_slong, strtol, hsub, hv, hmaxabs]
  · obtain ⟨hd, hne, hv⟩ := decimal_spec (LONG_MIN w).natAbs
    have hsub := subject_minus_decimal _ hd hne
    simp [nget_slong, strtol, hsub, hv, hminabs]
  · obtain ⟨hd, hne, hv⟩ := decimal_spec (ULONG_MAX w)
    have hsub := subject_decimal _ hd hne
    simp [nget_uslong, strtoul, hsub, hv]
  · intro s hs hv
    have hne : s ≠ [] := by
      rintro rfl
      simp [decimalValue, ofDigits] at hv
    have hsub := subject_decimal s hs hne
    have hgt : LONG_MAX w < (decimalValue s : Int) := by
      rw [hv, Nat.cast_add, hmaxabs]; omega
    simp [nget_slong, strtol, hsub, hgt, hE]
  · intro s hs hv
    have hne : s ≠ [] := by
      rintro rfl
      simp [decimalValue, ofDigits] at hv
    have hsub := subject_minus_decimal s hs hne
    have hlt : -(decimalValue s : Int) < LONG_MIN w := by
      rw [hv, Nat.cast_add, hminabs]; omega
    have hmm : LONG_MIN w ≠ LONG_MAX w := ne_of_lt (LONG_MIN_lt_LONG_MAX w)
    simp [nget_slong, strtol, hsub, hlt, hE, hmm]
  · intro s hs hv
    have hne : s ≠ [] := by
      rintro rfl
      simp [decimalValue, ofDigits] at hv
    have hsub := subject_decimal s hs hne
    have hgt : ULONG_MAX w < decimalValue s := by omega
    simp [nget_uslong, strtoul, hsub, hgt, hE]

/-- Witness of `nget_extreme_exact` with a 64-bit `long`: the texts of
`LONG_MAX`, `LONG_MIN` and `ULONG_MAX`, and the texts one larger. -/
theorem nget_extreme_exact_witness :
    nget_slong 64 (strtol 64) (units "9223372036854775807") 10 =
      ⟨.NUM_OK, LONG_MAX 64, 19⟩ ∧
    nget_slong 64 (strtol 64) (units "-9223372036854775808") 10 =
      ⟨.NUM_OK, LONG_MIN 64, 20⟩ ∧
    nget_uslong 64 (strtoul 64) (units "18446744073709551615") 10 =
      ⟨.NUM_OK, ULONG_MAX 64, 20⟩ ∧
    nget_slong 64 (strtol 64) (units "9223372036854775808") 10 =
      ⟨.NUM_OVER, LONG_MAX 64, 19⟩ ∧
    nget_slong 64 (strtol 64) (units "-9223372036854775809") 10 =
      ⟨.NUM_UNDER, LONG_MIN 64, 20⟩ ∧
    nget_uslong 64 (strtoul 64) (units "18446744073709551616") 10 =
      ⟨.NUM_OVER, ULONG_MAX 64, 20⟩ := by
  have h := nget_extreme_exact 64
  have e1 : decimal (LONG_MAX 64).natAbs = units "9223372036854775807" := by
    rw [show (LONG_MAX 64).natAbs = 9223372036854775807 by decide]
    simp [decimal, units]
  have e2 : decimal (LONG_MIN 64).natAbs = units "9223372036854775808" := by
    rw [show (LONG_MIN 64).natAbs = 9223372036854775808 by decide]
    simp [decimal, units]
  have e3 : decimal (ULONG_MAX 64) = units "18446744073709551615" := by
    rw [show ULONG_MAX 64 = 18446744073709551615 by decide]
    simp [decimal, units]
  rw [e1, e2, e3] at h
  exact ⟨h.1, h.2.1, h.2.2.1,
    h.2.2.2.1 (units "9223372036854775808") (by decide) (by decide),
    h.2.2.2.2.1 (units "9223372036854775809") (by decide) (by decide),
    h.2.2.2.2.2 (units "18446744073709551616") (by decide) (by decide)⟩


/-! ## nonblank -/

/-- The loop of `nonblank`, started inside the line with `cnt + len` the line
length, stops without leaving the line: either on the first unit from `cnt`
that is not blank, or at the end of the line with every unit from `cnt`
blank. -/
theorem blankLoop_spec (line : List Nat) :
    ∀ len cnt, cnt + len = line.length →
      ∃ c l, blankLoop line cnt len = some (c, l) ∧ c + l = line.length ∧ cnt ≤ c ∧
        (∀ i, cnt ≤ i → i < c → blankAt line i = true) ∧
        (l ≠ 0 → blankAt line c = false) := by
  intro len
  induction len with
  | zero =>
    intro cnt h
    exact ⟨cnt, 0, rfl, h, le_refl _, fun i h1 h2 => absurd h1 (by omega), fun h0 => absurd rfl h0⟩
  | succ n ih =>
    intro cnt h
    have hlt : cnt < line.length := by omega
    have hget : line.get? cnt = some (line.get ⟨cnt, hlt⟩) := List.get?_eq_get hlt
    by_cases hb : isblank (line.get ⟨cnt, hlt⟩) = true
    · obtain ⟨c, l, hl, hsum, hle, hall, hstop⟩ := ih (cnt + 1) (by omega)
      refine ⟨c, l, ?_, hsum, by omega, ?_, hstop⟩
      · simp only [blankLoop, hget, hb, if_true, hl]
      · intro i h1 h2
        by_cases hi : i = cnt
        · subst hi
          simp only [blankAt, hget, hb]
        · exact hall i (by omega) h2
    · refine ⟨cnt, n + 1, ?_, h, le_refl _, fun i h1 h2 => absurd h1 (by omega), fun _ => ?_⟩
      · simp only [blankLoop, hget, hb, if_false, Bool.false_eq_true]
      · simp only [blankAt, hget]
        simpa using hb

/-- What `nonblank` returns when the line is fetched and the offset is inside
it: success, with a column from the offset on and inside the line, every unit
between them blank, and the column either not blank or the last one of a run
of blanks that reaches the end of the line. -/
theorem nonblank_scan (w : Nat) (db_eget : Nat → Eget) (lno off : Nat) (line : List Nat)
    (hf : db_eget lno = .ok line) (hoff : off < line.length) (hw : line.length < 2 ^ w) :
    ∃ col, nonblank w db_eget lno off = some (0, col) ∧ off ≤ col ∧ col < line.length ∧
      (∀ i, off ≤ i → i < col → blankAt line i = true) ∧
      (blankAt line col = false ∨
        (col = line.length - 1 ∧ ∀ i, off ≤ i → i < line.length → blankAt line i = true)) := by
  obtain ⟨c, l, hl, hsum, hle, hall, hstop⟩ :=
    blankLoop_spec line (line.length - off) off (by omega)
  have hguard : ¬ (line.length = 0 ∨ off ≥ line.length) := by omega
  by_cases h0 : l = 0
  · subst h0
    have hc : c = line.length := by omega
    have hm : (c + 2 ^ w - 1) % 2 ^ w = c - 1 := by
      have h1 : c + 2 ^ w - 1 = (c - 1) + 2 ^ w := by omega
      rw [h1, Nat.add_mod_right]
      exact Nat.mod_eq_of_lt (by omega)
    refine ⟨c - 1, ?_, by omega, by omega, fun i h1 h2 => hall i h1 (by omega), Or.inr ⟨by omega, ?_⟩⟩
    · simp only [nonblank, hf, if_neg hguard, hl, ne_eq, not_true_eq_false, if_false, hm]
    · intro i h1 h2
      exact hall i h1 (by omega)
  · refine ⟨c, ?_, hle, by omega, hall, Or.inl (hstop h0)⟩
    simp only [nonblank, hf, if_neg hguard, hl, ne_eq, h0, not_false_eq_true, if_true]

/-- C15: for a fetched line and a starting offset inside it, `nonblank` returns
success and sets the column to the least offset from the start on whose unit
is not blank, or to the last offset of the line when every unit from the
start on is blank. -/
theorem nonblank_first_nonblank (w : Nat) (db_eget : Nat → Eget) (lno off : Nat)
    (line : List Nat) (hf : db_eget lno = .ok line) (hlen : 0 < line.length)
    (hoff : off < line.length) (hw : line.length < 2 ^ w) :
    ∃ col, nonblank w db_eget lno off = some (0, col) ∧ off ≤ col ∧ col < line.length ∧
      ((∃ j, off ≤ j ∧ j < line.length ∧ blankAt line j = false) →
        blankAt line col = false ∧ ∀ j, off ≤ j → blankAt line j = false → col ≤ j) ∧
      ((∀ i, off ≤ i → i < line.length → blankAt line i = true) → col = line.length - 1) := by
  obtain ⟨col, hres, hle, hlt, hall, hend⟩ := nonblank_scan w db_eget lno off line hf hoff hw
  have _ := hlen
  refine ⟨col, hres, hle, hlt, ?_, ?_⟩
  · rintro ⟨j, hj1, hj2, hj3⟩
    have hcol : blankAt line col = false := by
      rcases hend with h | ⟨_, h⟩
      · exact h
      · rw [h j hj1 hj2] at hj3
        exact absurd hj3 (by decide)
    refine ⟨hcol, fun k hk1 hk2 => ?_⟩
    by_contra hlt'
    rw [hall k hk1 (by omega)] at hk2
    exact absurd hk2 (by decide)
  · intro hblank
    rcases hend with h | ⟨h, _⟩
    · rw [hblank col hle hlt] at h
      exact absurd h (by decide)
    · exact h

/-- Witness of `nonblank_first_nonblank`: an all-blank line of length 5 from
offset 0 gives success and column 4. -/
theorem nonblank_first_nonblank_witness :
    ∃ col, nonblank 64 (fun _ => .ok [32, 32, 9, 32, 32]) 1 0 = some (0, col) ∧
      0 ≤ col ∧ col < 5 ∧ col = 5 - 1 := by
  obtain ⟨col, h1, h2, h3, _, h5⟩ :=
    nonblank_first_nonblank 64 (fun _ => .ok [32, 32, 9, 32, 32]) 1 0 [32, 32, 9, 32, 32]
      rfl (by decide) (by decide) (by decide)
  exact ⟨col, h1, h2, h3, h5 (by decide)⟩

/-- C16: when the line fetch fails, `nonblank` returns 0 (success) iff the line
store flags the file as empty and a non-zero code otherwise, and the column
is 0 whatever the starting offset. -/
theorem nonblank_fetch_fails (w : Nat) (db_eget : Nat → Eget) (lno off : Nat) (isempty : Int)
    (hf : db_eget lno = .fail isempty) :
    ∃ rc, nonblank w db_eget lno off = some (rc, 0) ∧ (rc = 0 ↔ isempty ≠ 0) ∧
      (rc ≠ 0 ↔ isempty = 0) := by
  refine ⟨if isempty = 0 then 1 else 0, ?_, ?_, ?_⟩
  · simp only [nonblank, hf]
  · by_cases h : isempty = 0 <;> simp [h]
  · by_cases h : isempty = 0 <;> simp [h]

/-- Witness of `nonblank_fetch_fails`: an empty file, offset 7. -/
theorem nonblank_fetch_fails_witness :
    ∃ rc, nonblank 64 (fun _ => .fail 1) 1 7 = some (rc, 0) ∧ (rc = 0 ↔ (1 : Int) ≠ 0) ∧
      (rc ≠ 0 ↔ (1 : Int) = 0) :=
  nonblank_fetch_fails 64 (fun _ => .fail 1) 1 7 1 rfl

/-- C17: when the line is fetched and it is empty or the starting offset is at
or past its length, `nonblank` returns success with column 0, whatever the
line holds. -/
theorem nonblank_offset_outside (w : Nat) (db_eget : Nat → Eget) (lno off : Nat)
    (line : List Nat) (hf : db_eget lno = .ok line)
    (h : line.length = 0 ∨ off ≥ line.length) :
    nonblank w db_eget lno off = some (0, 0) := by
  simp only [nonblank, hf, if_pos h]

/-- Witness of `nonblank_offset_outside`: offset 5 on a line of length 5. -/
theorem nonblank_offset_outside_witness :
    nonblank 64 (fun _ => .ok [32, 32, 9, 65, 32]) 1 5 = some (0, 0) :=
  nonblank_offset_outside 64 (fun _ => .ok [32, 32, 9, 65, 32]) 1 5 [32, 32, 9, 65, 32]
    rfl (by decide)

/-- C18: the column `nonblank` writes is a safe index. For every fetch outcome
and starting offset the call returns and the column is 0 or inside the
fetched line; and when the line is fetched with the offset inside it, the
column is not before the offset and is inside the line, so `cnt - 1` has not
wrapped. -/
theorem nonblank_column_safe (w : Nat) (db_eget : Nat → Eget) (lno off : Nat)
    (hw : ∀ line, db_eget lno = .ok line → line.length < 2 ^ w) :
    ∃ rc col, nonblank w db_eget lno off = some (rc, col) ∧
      (col = 0 ∨ ∃ line, db_eget lno = .ok line ∧ col < line.length) ∧
      (∀ line, db_eget lno = .ok line → off < line.length → off ≤ col ∧ col < line.length) := by
  cases hf : db_eget lno with
  | fail e =>
    refine ⟨if e = 0 then 1 else 0, 0, ?_, Or.inl rfl, ?_⟩
    · simp only [nonblank, hf]
    · intro line hl
      exact absurd hl (by simp)
  | ok line =>
    by_cases hg : line.length = 0 ∨ off ≥ line.length
    · refine ⟨0, 0, ?_, Or.inl rfl, ?_⟩
      · simp only [nonblank, hf, if_pos hg]
      · intro l hl hoff
        have : l = line := by injection hl with h; exact h.symm
        subst this
        omega
    · have hoff : off < line.length := by omega
      obtain ⟨col, hres, hle, hlt, _, _⟩ :=
        nonblank_scan w db_eget lno off line hf hoff (hw line hf)
      refine ⟨0, col, hres, Or.inr ⟨line, rfl, hlt⟩, ?_⟩
      intro l hl _
      have : l = line := by injection hl with h; exact h.symm
      subst this
      exact ⟨hle, hlt⟩

/-- Witness of `nonblank_column_safe`: offset 1 on the line `"  \tA "`. -/
theorem nonblank_column_safe_witness :
    ∃ rc col, nonblank 64 (fun _ => .ok [32, 32, 9, 65, 32]) 1 1 = some (rc, col) ∧
      (col = 0 ∨ ∃ line, (Eget.ok [32, 32, 9, 65, 32]) = .ok line ∧ col < line.length) ∧
      (∀ line, (Eget.ok [32, 32, 9, 65, 32]) = .ok line → 1 < line.length →
        1 ≤ col ∧ col < line.length) :=
  nonblank_column_safe 64 (fun _ => .ok [32, 32, 9, 65, 32]) 1 1
    (fun line hl => by
      have h : line = [32, 32, 9, 65, 32] := by injection hl with h; exact h.symm
      subst h
      decide)

/-! ## tail -/

/-- When `strrchr` finds nothing, the unit does not occur in the text. -/
theorem strrchr_none (c : Nat) : ∀ s : List Nat, strrchr s c = none → c ∉ s := by
  intro s
  induction s with
  | nil => intro _; simp
  | cons x xs ih =>
    intro h
    cases hxs : strrchr xs c with
    | some i => simp [strrchr, hxs] at h
    | none =>
      have hx : x ≠ c := by
        intro hxc
        simp [strrchr, hxs, hxc] at h
      intro hmem
      rcases List.mem_cons.mp hmem with h1 | h1
      · exact hx h1.symm
      · exact ih hxs h1

/-- When `strrchr` finds the unit at offset `i`, the text splits there and the
unit does not occur after it. -/
theorem strrchr_some (c : Nat) :
    ∀ (s : List Nat) (i : Nat), strrchr s c = some i →
      s = s.take i ++ c :: s.drop (i + 1) ∧ c ∉ s.drop (i + 1) := by
  intro s
  induction s with
  | nil => intro i h; simp [strrchr] at h
  | cons x xs ih =>
    intro i h
    cases hxs : strrchr xs c with
    | some j =>
      have hi : i = j + 1 := by
        simp [strrchr, hxs] at h
        omega
      subst hi
      obtain ⟨h1, h2⟩ := ih j hxs
      refine ⟨?_, by simpa using h2⟩
      simp only [List.take_succ_cons, List.drop_succ_cons, List.cons_append]
      exact congrArg (List.cons x) h1
    | none =>
      by_cases hx : x = c
      · have hi : i = 0 := by
          simp [strrchr, hxs, hx] at h
          omega
        subst hi
        subst hx
        exact ⟨by simp, by simpa using strrchr_none x xs hxs⟩
      · simp [strrchr, hxs, hx] at h

/-- C19: `tail` returns a suffix of the path that holds no `'/'`. A path
without `'/'` is returned whole; otherwise the result is what follows the
last `'/'`, so the path is a part ending in `'/'` followed by the result, and
a path that ends in `'/'` gives the empty text. -/
theorem tail_after_last_slash (path : List Nat) :
    List.IsSuffix (tail path) path ∧ 47 ∉ tail path ∧
    (47 ∉ path → tail path = path) ∧
    (47 ∈ path → ∃ pre, path = (pre ++ [47]) ++ tail path) ∧
    (path.getLast? = some 47 → tail path = []) := by
  cases h : strrchr path 47 with
  | none =>
    have hno := strrchr_none 47 path h
    have ht : tail path = path := by simp only [tail, h]
    rw [ht]
    refine ⟨List.suffix_refl _, hno, fun _ => rfl, fun hm => absurd hm hno, fun hl => ?_⟩
    exact absurd (List.mem_of_getLast?_eq_some hl) hno
  | some i =>
    obtain ⟨hsplit, hno⟩ := strrchr_some 47 path i h
    have ht : tail path = path.drop (i + 1) := by simp only [tail, h]
    rw [ht]
    have hsplit' : path = (path.take i ++ [47]) ++ path.drop (i + 1) := by
      rw [List.append_assoc]
      exact hsplit
    refine ⟨List.drop_suffix _ _, hno, fun hn => ?_, fun _ => ⟨path.take i, hsplit'⟩, fun hl => ?_⟩
    · exact absurd (by rw [hsplit]; simp) hn
    · by_contra hne
      have hlast : (path.drop (i + 1)).getLast? = some 47 := by
        rw [hsplit', List.getLast?_append_of_ne_nil _ hne] at hl
        exact hl
      exact hno (List.mem_of_getLast?_eq_some hlast)

/-- Witness of `tail_after_last_slash`: the tail of `"/usr/bin/vi"` is `"vi"`. -/
theorem tail_after_last_slash_witness :
    tail (units "/usr/bin/vi") = units "vi" ∧ tail (units "a/b/") = [] ∧
    ∃ pre, units "/usr/bin/vi" = (pre ++ [47]) ++ tail (units "/usr/bin/vi") :=
  ⟨by decide, (tail_after_last_slash (units "a/b/")).2.2.2.2 (by decide),
   (tail_after_last_slash (units "/usr/bin/vi")).2.2.2.1 (by decide)⟩

end Nvi
